import Mathlib

/-!
Shallow embedding of the api-ingestion service (`src/main.py`).

The embedding covers: the `Priority` enum and its rank (`get_value`), the
`BatchStatus` lifecycle enum, `Batch` / `IngestionJob` objects and the
batch-splitting constructor (`_create_batches`), the derived overall status
(`get_overall_status`), the serialised record shape (`to_dict`), the Redis
key-value store together with `update_redis_status`'s scan-and-rewrite,
the priority-queue comparison (`__lt__` plus Python tuple comparison on
`(priority_value, job)` entries) and heap pop, the dispatch of one popped
job as a trace of atomic transition events, the HTTP handlers
`ingest_data` and `get_status`, and a rational-clock model of the
`process_jobs` scheduler loop's throttling.

Machine integers are modelled with `Int`/`Nat` (ids are small, and the code
performs no overflowing arithmetic); the monotonic creation timestamp is a
`Nat`; scheduler wall-clock times are `ℚ` (the loop sleeps for `0.1`).
Redis is a finite association list of key/record pairs; `redis.keys`
enumerates it in list order.  `uuid.uuid4()` results are modelled as
caller-supplied identifier strings (the code only ever compares them for
equality).
-/

/-- `Priority(str, Enum)` from the source: HIGH, MEDIUM, LOW. -/
inductive Priority where
  | HIGH
  | MEDIUM
  | LOW
deriving DecidableEq, Repr

/-- `Priority.get_value`: HIGH ↦ 0, MEDIUM ↦ 1, anything else (LOW) ↦ 2. -/
def Priority.get_value : Priority → Nat
  | .HIGH => 0
  | .MEDIUM => 1
  | .LOW => 2

/-- `BatchStatus(str, Enum)`: yet_to_start, triggered, completed. -/
inductive BatchStatus where
  | YET_TO_START
  | TRIGGERED
  | COMPLETED
deriving DecidableEq, Repr

/-- Numeric position of a status along the lifecycle
`YET_TO_START → TRIGGERED → COMPLETED` (used to state monotonicity). -/
def BatchStatus.rank : BatchStatus → Nat
  | .YET_TO_START => 0
  | .TRIGGERED => 1
  | .COMPLETED => 2

/-- One forward step along the batch lifecycle. -/
def BatchStatus.forwardStep : BatchStatus → BatchStatus
  | .YET_TO_START => .TRIGGERED
  | .TRIGGERED => .COMPLETED
  | .COMPLETED => .COMPLETED

/-- The in-memory `Batch` object: identifier, carried ids, mutable status. -/
structure Batch where
  batch_id : String
  ids : List Int
  status : BatchStatus
deriving DecidableEq, Repr

/-- The serialised shape `Batch.to_dict` writes into the record. -/
structure BatchRecord where
  batch_id : String
  ids : List Int
  status : BatchStatus
deriving DecidableEq, Repr

/-- `Batch.to_dict`. -/
def Batch.to_dict (b : Batch) : BatchRecord :=
  { batch_id := b.batch_id, ids := b.ids, status := b.status }

/-- The in-memory `IngestionJob` object. -/
structure IngestionJob where
  ingestion_id : String
  ids : List Int
  priority : Priority
  created_time : Nat
  batches : List Batch
deriving DecidableEq, Repr

/-- `IngestionJob._create_batches`: `for i in range(0, len(ids), 3)` slice
`ids[i:i+3]` into a fresh `Batch` with a generated identifier and default
status `YET_TO_START`.  `mkId k` stands for the `uuid.uuid4()` drawn for the
`k`-th batch. -/
def create_batches (mkId : Nat → String) : Nat → List Int → List Batch
  | _, [] => []
  | k, x :: xs =>
      { batch_id := mkId k, ids := (x :: xs).take 3, status := .YET_TO_START }
        :: create_batches mkId (k + 1) ((x :: xs).drop 3)
termination_by _ l => l.length
decreasing_by
  simp only [List.length_drop, List.length_cons]
  omega

/-- `IngestionJob.__init__`: store the request data and build the batches. -/
def IngestionJob.build (ingestion_id : String) (mkId : Nat → String)
    (ids : List Int) (priority : Priority) (created_time : Nat) : IngestionJob :=
  { ingestion_id := ingestion_id, ids := ids, priority := priority,
    created_time := created_time, batches := create_batches mkId 0 ids }

/-- `IngestionJob.get_overall_status`: COMPLETED if every batch status is
COMPLETED, else TRIGGERED if some batch status is TRIGGERED, else
YET_TO_START. -/
def IngestionJob.get_overall_status (j : IngestionJob) : BatchStatus :=
  if j.batches.all (fun b => b.status = .COMPLETED) then .COMPLETED
  else if j.batches.any (fun b => b.status = .TRIGGERED) then .TRIGGERED
  else .YET_TO_START

/-- The persisted status record `IngestionJob.to_dict` serialises. -/
structure JobRecord where
  ingestion_id : String
  status : BatchStatus
  batches : List BatchRecord
deriving DecidableEq, Repr

/-- `IngestionJob.to_dict`. -/
def IngestionJob.to_dict (j : IngestionJob) : JobRecord :=
  { ingestion_id := j.ingestion_id,
    status := j.get_overall_status,
    batches := j.batches.map Batch.to_dict }

/-- §3's derivation rule applied to the batch statuses stored in a persisted
record (same three-way rule as `get_overall_status`, read off the record). -/
def overallOfRecord (r : JobRecord) : BatchStatus :=
  if r.batches.all (fun b => b.status = .COMPLETED) then .COMPLETED
  else if r.batches.any (fun b => b.status = .TRIGGERED) then .TRIGGERED
  else .YET_TO_START

/-! ### The Redis store -/

/-- The store: an association list of `"ingestion:<id>"` keys to records.
`redis.keys("ingestion:*")` enumerates it in list order. -/
abbrev Store := List (String × JobRecord)

/-- `redis_client.get key`. -/
def storeGet (s : Store) (key : String) : Option JobRecord :=
  (s.find? (fun p => p.1 = key)).map (fun p => p.2)

/-- `redis_client.set key r`: overwrite the first binding of `key`, or append
a fresh binding. -/
def storeSet (s : Store) (key : String) (r : JobRecord) : Store :=
  match s with
  | [] => [(key, r)]
  | p :: rest =>
      if p.1 = key then (key, r) :: rest else p :: storeSet rest key r

/-- The inner loop of `update_redis_status`: set the status of the first
batch entry whose `batch_id` matches, leaving the rest alone. -/
def setFirstBatchStatus (bid : String) (st : BatchStatus) :
    List BatchRecord → List BatchRecord
  | [] => []
  | br :: rest =>
      if br.batch_id = bid then { br with status := st } :: rest
      else br :: setFirstBatchStatus bid st rest

/-- Whether a record's batch list mentions `bid` (the `for b in
job_data["batches"]` scan finds a match). -/
def recordHasBatch (bid : String) (r : JobRecord) : Bool :=
  r.batches.any (fun br => br.batch_id = bid)

/-- `update_redis_status(batch)`: walk every `ingestion:*` key in order;
inside the first record containing `batch.batch_id`, overwrite that batch
entry's status with the in-memory status, write the record back, and return.
The record's top-level `status` field is not touched. -/
def update_redis_status (b : Batch) : Store → Store
  | [] => []
  | (key, r) :: rest =>
      if recordHasBatch b.batch_id r then
        (key, { r with batches := setFirstBatchStatus b.batch_id b.status r.batches }) :: rest
      else
        (key, r) :: update_redis_status b rest

/-! ### The priority queue -/

/-- A queue entry: `(job.priority.get_value(), job)` as put by `ingest_data`. -/
abbrev QEntry := Nat × IngestionJob

/-- `IngestionJob.__lt__`: compare priority ranks; on equal ranks compare
creation timestamps. -/
def jobLt (a b : IngestionJob) : Bool :=
  if a.priority.get_value ≠ b.priority.get_value then
    decide (a.priority.get_value < b.priority.get_value)
  else
    decide (a.created_time < b.created_time)

/-- Python tuple comparison on `(priority_value, job)` entries, as used by
`asyncio.PriorityQueue`'s heap: first components by `<` on integers, and on
equal first components fall through to `IngestionJob.__lt__`. -/
def entryLt (a b : QEntry) : Bool :=
  decide (a.1 < b.1) || (decide (a.1 = b.1) && jobLt a.2 b.2)

/-- The element a binary heap pop returns: an entry no other entry compares
strictly below.  Ties are broken by keeping the earliest minimal entry. -/
def selMin (e : QEntry) : List QEntry → QEntry
  | [] => e
  | x :: xs => if entryLt x e then selMin x xs else selMin e xs

/-- Draining the queue by repeated heap pops, with explicit fuel (structural
recursion on the fuel; the fuel is always instantiated with the queue
length, which bounds the number of pops). -/
def popAllAux : Nat → List QEntry → List QEntry
  | 0, _ => []
  | _ + 1, [] => []
  | n + 1, e :: es =>
      selMin e es :: popAllAux n ((e :: es).erase (selMin e es))

/-- Draining the queue by repeated heap pops: each step removes one minimal
entry.  This is the order in which the single consumer receives entries. -/
def popAll (q : List QEntry) : List QEntry :=
  popAllAux q.length q

/-! ### Dispatch of one popped job

`process_jobs` runs, for each batch of the popped job in list order:
`batch.status = TRIGGERED; await update_redis_status(batch)` (no awaited
suspension inside, so set-and-persist is atomic w.r.t. other coroutines),
then `process_batch(batch)` = `await asyncio.sleep(1)` (a suspension point),
then `batch.status = COMPLETED; await update_redis_status(batch)` (atomic
again).  We model this as a trace of events. -/

/-- One atomic step of the dispatch of a job: `trigger i` sets batch `i` to
TRIGGERED and persists it, `work i` is the simulated API delay (a suspension
point changing no state), `complete i` sets batch `i` to COMPLETED and
persists it. -/
inductive Event where
  | trigger (i : Nat)
  | work (i : Nat)
  | complete (i : Nat)
deriving DecidableEq, Repr

/-- Apply one dispatch event to the in-memory job and the store. -/
def applyEvent (st : IngestionJob × Store) (e : Event) : IngestionJob × Store :=
  match e with
  | .work _ => st
  | .trigger i =>
      match st.1.batches[i]? with
      | none => st
      | some b =>
          let b' := { b with status := BatchStatus.TRIGGERED }
          ({ st.1 with batches := st.1.batches.set i b' },
           update_redis_status b' st.2)
  | .complete i =>
      match st.1.batches[i]? with
      | none => st
      | some b =>
          let b' := { b with status := BatchStatus.COMPLETED }
          ({ st.1 with batches := st.1.batches.set i b' },
           update_redis_status b' st.2)

/-- Run a sequence of dispatch events. -/
def runDispatch (st : IngestionJob × Store) (p : List Event) : IngestionJob × Store :=
  p.foldl applyEvent st

/-- The trace `process_jobs` generates for one popped job: for each batch in
list order, trigger-and-persist, do the work, complete-and-persist. -/
def dispatchTrace (j : IngestionJob) : List Event :=
  (List.range j.batches.length).flatMap fun i => [.trigger i, .work i, .complete i]

/-- The status a single event assigns to batch `i`, if any (`work` events
and events of other batches assign none). -/
def statusOfEvent (i : Nat) : Event → Option BatchStatus
  | .trigger k => if k = i then some .TRIGGERED else none
  | .complete k => if k = i then some .COMPLETED else none
  | .work _ => none

/-- The status assigned to batch `i` by the last trigger/complete event of a
trace, if any (`work` events carry no status). -/
def lastStatusEvent (i : Nat) : List Event → Option BatchStatus
  | [] => none
  | e :: p =>
      match lastStatusEvent i p with
      | some s => some s
      | none => statusOfEvent i e

/-- The batch index an event concerns. -/
def Event.idx : Event → Nat
  | .trigger i => i
  | .work i => i
  | .complete i => i

/-- Whether an event concerns batch `i`. -/
def Event.isFor (i : Nat) (e : Event) : Bool :=
  e.idx = i

/-- The in-memory status of batch `i` in a dispatch state (read off the
job object; defaults to the initial `YET_TO_START` out of range). -/
def memStatus (st : IngestionJob × Store) (i : Nat) : BatchStatus :=
  ((st.1.batches[i]?).map Batch.status).getD .YET_TO_START

/-! ### HTTP handlers -/

/-- The error responses the two handlers raise. -/
inductive ApiError where
  | badRequest (offending : Int)
  | notFound
deriving DecidableEq, Repr

/-- Result of `POST /ingest`. -/
inductive IngestResult where
  | ok (ingestion_id : String)
  | err (e : ApiError)
deriving DecidableEq, Repr

/-- Producer-visible system state: the Redis store and the job queue. -/
structure SysState where
  store : Store
  queue : List QEntry
deriving DecidableEq

/-- `ingest_data`: validate each id against `1 <= id <= 10**9 + 7`, raising
400 at the first violation (before any job is built, any record written or
anything enqueued); otherwise build the job, persist `job.to_dict()` under
`"ingestion:" + ingestion_id`, enqueue `(priority_value, job)`, and return
the new identifier.  `jid`/`mkId` stand for the drawn uuids, `t` for
`time.time()`. -/
def ingest_data (jid : String) (mkId : Nat → String) (ids : List Int)
    (priority : Priority) (t : Nat) (st : SysState) : IngestResult × SysState :=
  match ids.find? (fun i => !(decide (1 ≤ i) && decide (i ≤ 10 ^ 9 + 7))) with
  | some bad => (.err (.badRequest bad), st)
  | none =>
      let job := IngestionJob.build jid mkId ids priority t
      let st' : SysState :=
        { store := storeSet st.store ("ingestion:" ++ jid) job.to_dict,
          queue := st.queue ++ [(priority.get_value, job)] }
      (.ok jid, st')

/-- `get_status`: read `"ingestion:" + ingestion_id` from Redis; 404 when the
key is absent, otherwise the stored record verbatim.  The store is returned
unchanged (the handler only issues a read). -/
def get_status (s : Store) (ingestion_id : String) :
    (Except ApiError JobRecord) × Store :=
  match storeGet s ("ingestion:" ++ ingestion_id) with
  | none => (.error .notFound, s)
  | some r => (.ok r, s)

/-! ### The scheduler loop's clock behaviour

One iteration of `process_jobs` under the lock: read `time.time()`; if less
than 5 seconds have passed since `last_processed_time`, sleep exactly the
remainder; then, if the queue is non-empty, pop one entry, process its
batches sequentially (each `process_batch` sleeps 1 second; the Redis writes
are instantaneous), and set `last_processed_time` to the finishing time;
otherwise sleep 0.1.  `δ` is the (arbitrary) real time that elapsed since
the previous iteration's last clock reading; `arrivals` are entries other
coroutines enqueued meanwhile. -/

/-- Scheduler-side state: the current clock, `last_processed_time`, and the
queue contents. -/
structure SchedState where
  clock : ℚ
  last : ℚ
  queue : List QEntry

/-- One job dispatch as observed from outside: when it started, when it
finished, and the job it processed. -/
structure DispatchRec where
  start : ℚ
  finish : ℚ
  job : IngestionJob
deriving DecidableEq, Repr

/-- One iteration of the `process_jobs` loop. -/
def schedIter (arrivals : List QEntry) (δ : ℚ) (st : SchedState) :
    SchedState × Option DispatchRec :=
  let clock1 := st.clock + δ
  let clock2 := if clock1 - st.last < 5 then st.last + 5 else clock1
  let q := st.queue ++ arrivals
  match q with
  | [] => ({ clock := clock2 + 1 / 10, last := st.last, queue := [] }, none)
  | e :: es =>
      let m := selMin e es
      let finish := clock2 + m.2.batches.length
      ({ clock := finish, last := finish, queue := q.erase m },
       some { start := clock2, finish := finish, job := m.2 })

/-- Run the loop over a list of iterations, collecting the dispatches in
order. -/
def schedRun (st : SchedState) : List (List QEntry × ℚ) → SchedState × List DispatchRec
  | [] => (st, [])
  | (ar, δ) :: rest =>
      let out := schedIter ar δ st
      let tail := schedRun out.1 rest
      (tail.1, out.2.toList ++ tail.2)

/-! ### Basic store lemmas -/

/-- Reading back the key just written. -/
theorem storeGet_storeSet_self (s : Store) (key : String) (r : JobRecord) :
    storeGet (storeSet s key r) key = some r := by
  induction s with
  | nil => simp [storeSet, storeGet, List.find?]
  | cons p rest ih =>
      by_cases h : p.1 = key
      · simp [storeSet, storeGet, h, List.find?]
      · simp only [storeSet, h, if_false]
        simpa [storeGet, List.find?_cons, h] using ih

/-- `storeGet` walks past bindings whose keys differ from the one sought. -/
theorem storeGet_append (s1 : Store) (key : String) (r : JobRecord) (s2 : Store)
    (h : ∀ pr ∈ s1, pr.1 ≠ key) :
    storeGet (s1 ++ (key, r) :: s2) key = some r := by
  induction s1 with
  | nil => simp [storeGet, List.find?]
  | cons p rest ih =>
      have hp : p.1 ≠ key := h p (by simp)
      simp only [List.cons_append]
      simpa [storeGet, List.find?_cons, hp] using
        ih (fun q hq => h q (by simp [hq]))

/-! ### C2: batch decomposition -/

/-- Joint inductive characterisation of `_create_batches`: the chunks
concatenate back to the input, there are `⌈n/3⌉` of them, and every chunk
has between 1 and 3 ids and starts out `YET_TO_START`. -/
theorem create_batches_spec (mkId : Nat → String) :
    ∀ (n : Nat) (l : List Int), l.length ≤ n → ∀ (k : Nat),
      ((create_batches mkId k l).map Batch.ids).flatten = l ∧
      (create_batches mkId k l).length = (l.length + 2) / 3 ∧
      ∀ b ∈ create_batches mkId k l,
        b.ids.length ≤ 3 ∧ b.ids ≠ [] ∧ b.status = .YET_TO_START := by
  intro n
  induction n with
  | zero =>
      intro l hl k
      have : l = [] := List.length_eq_zero.mp (Nat.le_zero.mp hl)
      subst this
      simp [create_batches]
  | succ n ih =>
      intro l hl k
      match l with
      | [] => simp [create_batches]
      | x :: xs =>
          have hdrop : ((x :: xs).drop 3).length ≤ n := by
            simp only [List.length_drop, List.length_cons]
            simp only [List.length_cons] at hl
            omega
          obtain ⟨hflat, hlen, hall⟩ := ih ((x :: xs).drop 3) hdrop (k + 1)
          refine ⟨?_, ?_, ?_⟩
          · simp only [create_batches, List.map_cons, List.flatten_cons, hflat]
            exact List.take_append_drop 3 (x :: xs)
          · simp only [create_batches, List.length_cons, hlen, List.length_drop]
            omega
          · intro b hb
            simp only [create_batches, List.mem_cons] at hb
            rcases hb with hb | hb
            · subst hb
              refine ⟨by simp [List.length_take], by simp, rfl⟩
            · exact hall b hb

/-- C2: for every valid (all ids in `[1, 10^9+7]`) identifier list of length
`n`, job construction yields exactly `⌈n/3⌉ = (n+2)/3` batches, each batch
carries at most 3 identifiers, and concatenating the batches' id-lists in
order reproduces the input list exactly. -/
theorem c2_batch_partition (jid : String) (mkId : Nat → String) (ids : List Int)
    (priority : Priority) (t : Nat)
    (_hvalid : ∀ i ∈ ids, 1 ≤ i ∧ i ≤ 10 ^ 9 + 7) :
    (IngestionJob.build jid mkId ids priority t).batches.length = (ids.length + 2) / 3 ∧
    (∀ b ∈ (IngestionJob.build jid mkId ids priority t).batches, b.ids.length ≤ 3) ∧
    (((IngestionJob.build jid mkId ids priority t).batches.map Batch.ids).flatten = ids) := by
  obtain ⟨hflat, hlen, hall⟩ :=
    create_batches_spec mkId ids.length ids (Nat.le_refl _) 0
  exact ⟨hlen, fun b hb => (hall b hb).1, hflat⟩

/-- Witness for C2 at `ids = [1,2,3,4,5]`: 2 batches of sizes 3 and 2. -/
theorem c2_batch_partition_witness :
    (∀ i ∈ ([1, 2, 3, 4, 5] : List Int), 1 ≤ i ∧ i ≤ 10 ^ 9 + 7) ∧
    ((IngestionJob.build "j" (fun k => toString k) [1, 2, 3, 4, 5] .HIGH 0).batches.length
        = ([1, 2, 3, 4, 5] : List Int).length.succ.succ / 3 ∧
      (∀ b ∈ (IngestionJob.build "j" (fun k => toString k) [1, 2, 3, 4, 5] .HIGH 0).batches,
        b.ids.length ≤ 3) ∧
      (((IngestionJob.build "j" (fun k => toString k) [1, 2, 3, 4, 5] .HIGH 0).batches.map
          Batch.ids).flatten = [1, 2, 3, 4, 5])) :=
  ⟨by decide, c2_batch_partition "j" (fun k => toString k) [1, 2, 3, 4, 5] .HIGH 0 (by decide)⟩

/-! ### C8: derived aggregate status -/

/-- C8: `get_overall_status` returns COMPLETED iff all batches are COMPLETED;
otherwise it returns TRIGGERED iff some batch is TRIGGERED; otherwise it
returns YET_TO_START. -/
theorem c8_overall_status (j : IngestionJob) :
    (j.get_overall_status = .COMPLETED ↔ ∀ b ∈ j.batches, b.status = .COMPLETED) ∧
    (¬ (∀ b ∈ j.batches, b.status = .COMPLETED) →
      (j.get_overall_status = .TRIGGERED ↔ ∃ b ∈ j.batches, b.status = .TRIGGERED)) ∧
    (¬ (∀ b ∈ j.batches, b.status = .COMPLETED) →
      ¬ (∃ b ∈ j.batches, b.status = .TRIGGERED) →
      j.get_overall_status = .YET_TO_START) := by
  have hallb : (j.batches.all (fun b => b.status = .COMPLETED) = true) ↔
      (∀ b ∈ j.batches, b.status = .COMPLETED) := by
    simp [List.all_eq_true]
  have hanyb : (j.batches.any (fun b => b.status = .TRIGGERED) = true) ↔
      (∃ b ∈ j.batches, b.status = .TRIGGERED) := by
    simp [List.any_eq_true]
  unfold IngestionJob.get_overall_status
  by_cases hall : ∀ b ∈ j.batches, b.status = .COMPLETED
  · rw [if_pos (hallb.mpr hall)]
    exact ⟨⟨fun _ => hall, fun _ => rfl⟩, fun h => absurd hall h, fun h _ => absurd hall h⟩
  · rw [if_neg (fun hb => hall (hallb.mp hb))]
    by_cases hany : ∃ b ∈ j.batches, b.status = .TRIGGERED
    · rw [if_pos (hanyb.mpr hany)]
      exact ⟨⟨fun h => BatchStatus.noConfusion h, fun h => absurd h hall⟩,
        fun _ => ⟨fun _ => hany, fun _ => rfl⟩, fun _ h => absurd hany h⟩
    · rw [if_neg (fun hb => hany (hanyb.mp hb))]
      exact ⟨⟨fun h => BatchStatus.noConfusion h, fun h => absurd h hall⟩,
        fun _ => ⟨fun h => BatchStatus.noConfusion h, fun h => absurd h hany⟩,
        fun _ _ => rfl⟩

/-- Witness for C8 on a job with one TRIGGERED and one YET_TO_START batch. -/
theorem c8_overall_status_witness :
    (¬ (∀ b ∈ (IngestionJob.mk "j" [1, 2] .HIGH 0
          [Batch.mk "a" [1] .TRIGGERED, Batch.mk "b" [2] .YET_TO_START]).batches,
        b.status = .COMPLETED)) ∧
    ((IngestionJob.mk "j" [1, 2] .HIGH 0
          [Batch.mk "a" [1] .TRIGGERED, Batch.mk "b" [2] .YET_TO_START]).get_overall_status
        = .TRIGGERED ↔
      ∃ b ∈ (IngestionJob.mk "j" [1, 2] .HIGH 0
          [Batch.mk "a" [1] .TRIGGERED, Batch.mk "b" [2] .YET_TO_START]).batches,
        b.status = .TRIGGERED) :=
  ⟨by decide,
   (c8_overall_status _).2.1 (by decide)⟩

/-! ### C9: status query -/

/-- C9: the status query returns the persisted record verbatim when one
exists for the identifier, fails with NotFound (404) iff no record exists,
and leaves the store unchanged. -/
theorem c9_get_status_verbatim (s : Store) (iid : String) :
    ((get_status s iid).2 = s) ∧
    ((get_status s iid).1 = .error .notFound ↔ storeGet s ("ingestion:" ++ iid) = none) ∧
    (∀ r, storeGet s ("ingestion:" ++ iid) = some r → (get_status s iid).1 = .ok r) := by
  unfold get_status
  cases h : storeGet s ("ingestion:" ++ iid) with
  | none => simp
  | some r => simp

/-- Witness for C9: a present key is returned verbatim, an absent key 404s. -/
theorem c9_get_status_verbatim_witness :
    ((get_status [("ingestion:x", JobRecord.mk "x" .YET_TO_START [])] "x").1 =
        .ok (JobRecord.mk "x" .YET_TO_START [])) ∧
    ((get_status [("ingestion:x", JobRecord.mk "x" .YET_TO_START [])] "y").1 =
        .error .notFound) :=
  ⟨(c9_get_status_verbatim [("ingestion:x", JobRecord.mk "x" .YET_TO_START [])] "x").2.2
      (JobRecord.mk "x" .YET_TO_START []) (by decide),
   (c9_get_status_verbatim [("ingestion:x", JobRecord.mk "x" .YET_TO_START [])] "y").2.1.mpr
      (by decide)⟩

/-! ### C7: ingestion validation -/

/-- C7: when some id lies outside `[1, 10^9+7]`, ingestion fails with a
400-class error naming the first offending id and the state is unchanged
(no record persisted, nothing enqueued); when every id is in range
(boundaries included) no validation error is raised, and the success path
performs exactly one store write and one queue insertion. -/
theorem c7_ingest_validation (jid : String) (mkId : Nat → String) (ids : List Int)
    (priority : Priority) (t : Nat) (st : SysState) :
    (∀ bad, ids.find? (fun i => !(decide (1 ≤ i) && decide (i ≤ 10 ^ 9 + 7))) = some bad →
      (¬ (1 ≤ bad ∧ bad ≤ 10 ^ 9 + 7)) ∧
      ingest_data jid mkId ids priority t st = (.err (.badRequest bad), st)) ∧
    ((ids.find? (fun i => !(decide (1 ≤ i) && decide (i ≤ 10 ^ 9 + 7))) = none) ↔
      ∀ i ∈ ids, 1 ≤ i ∧ i ≤ 10 ^ 9 + 7) ∧
    ((∀ i ∈ ids, 1 ≤ i ∧ i ≤ 10 ^ 9 + 7) →
      ingest_data jid mkId ids priority t st =
        (.ok jid,
         SysState.mk
           (storeSet st.store ("ingestion:" ++ jid)
             (IngestionJob.build jid mkId ids priority t).to_dict)
           (st.queue ++ [(priority.get_value, IngestionJob.build jid mkId ids priority t)]))) := by
  have hiff : (ids.find? (fun i => !(decide (1 ≤ i) && decide (i ≤ 10 ^ 9 + 7))) = none) ↔
      ∀ i ∈ ids, 1 ≤ i ∧ i ≤ 10 ^ 9 + 7 := by
    rw [List.find?_eq_none]
    constructor
    · intro h i hi
      have := h i hi
      simp only [Bool.not_eq_true, Bool.not_eq_false', Bool.and_eq_true,
        decide_eq_true_eq] at this
      exact this
    · intro h i hi
      simp only [Bool.not_eq_true, Bool.not_eq_false', Bool.and_eq_true,
        decide_eq_true_eq]
      exact h i hi
  refine ⟨?_, hiff, ?_⟩
  · intro bad hbad
    constructor
    · have hmem := List.find?_some hbad
      simp only [Bool.not_eq_true', Bool.and_eq_false_iff, decide_eq_false_iff_not] at hmem
      intro hc
      rcases hmem with hm | hm
      · exact hm hc.1
      · exact hm hc.2
    · unfold ingest_data
      rw [hbad]
  · intro h
    unfold ingest_data
    rw [hiff.mpr h]

/-- Witness for C7: id 0 is rejected (state untouched), ids `[1, 10^9+7]`
are accepted. -/
theorem c7_ingest_validation_witness :
    ((¬ (1 ≤ (0 : Int) ∧ (0 : Int) ≤ 10 ^ 9 + 7)) ∧
      ingest_data "j" (fun k => toString k) [0, 1, 2] .HIGH 0 (SysState.mk [] []) =
        (.err (.badRequest 0), SysState.mk [] [])) ∧
    (ingest_data "j" (fun k => toString k) [1, 10 ^ 9 + 7] .HIGH 0 (SysState.mk [] []) =
      (.ok "j",
       SysState.mk
         (storeSet ([] : Store) ("ingestion:" ++ "j")
           (IngestionJob.build "j" (fun k => toString k) [1, 10 ^ 9 + 7] .HIGH 0).to_dict)
         (([] : List QEntry) ++
           [(Priority.get_value .HIGH,
             IngestionJob.build "j" (fun k => toString k) [1, 10 ^ 9 + 7] .HIGH 0)]))) :=
  ⟨(c7_ingest_validation "j" (fun k => toString k) [0, 1, 2] .HIGH 0 (SysState.mk [] [])).1
      0 (by norm_num),
   (c7_ingest_validation "j" (fun k => toString k) [1, 10 ^ 9 + 7] .HIGH 0
      (SysState.mk [] [])).2.2 (by norm_num)⟩

/-! ### C10: empty id list -/

/-- C10: ingesting an empty id list succeeds (no validation error), the
persisted record has zero batches and overall status COMPLETED from the
moment of ingestion, and dispatching the resulting job is a no-op (its
dispatch trace is empty), so nothing ever changes that record. -/
theorem c10_empty_ids (jid : String) (mkId : Nat → String) (priority : Priority)
    (t : Nat) (st : SysState) :
    ((ingest_data jid mkId [] priority t st).1 = .ok jid) ∧
    (storeGet (ingest_data jid mkId [] priority t st).2.store ("ingestion:" ++ jid) =
      some (JobRecord.mk jid .COMPLETED [])) ∧
    (dispatchTrace (IngestionJob.build jid mkId [] priority t) = []) ∧
    (∀ s : Store,
      runDispatch (IngestionJob.build jid mkId [] priority t, s)
          (dispatchTrace (IngestionJob.build jid mkId [] priority t)) =
        (IngestionJob.build jid mkId [] priority t, s)) := by
  have hbuild : (IngestionJob.build jid mkId [] priority t).batches = [] := by
    simp [IngestionJob.build, create_batches]
  have htrace : dispatchTrace (IngestionJob.build jid mkId [] priority t) = [] := by
    simp [dispatchTrace, hbuild]
  have hdict : (IngestionJob.build jid mkId [] priority t).to_dict =
      JobRecord.mk jid .COMPLETED [] := by
    simp [IngestionJob.build, IngestionJob.to_dict, IngestionJob.get_overall_status,
      create_batches]
  refine ⟨?_, ?_, htrace, ?_⟩
  · simp [ingest_data, List.find?]
  · simp only [ingest_data, List.find?]
    rw [hdict]
    exact storeGet_storeSet_self st.store ("ingestion:" ++ jid) _
  · intro s
    rw [htrace]
    rfl

/-! ### C3: queue ordering -/

/-- `entryLt` is lexicographic comparison of the key triple
(tuple rank, priority rank, creation time). -/
theorem entryLt_iff (a b : QEntry) : entryLt a b = true ↔
    (a.1 < b.1 ∨ (a.1 = b.1 ∧ (a.2.priority.get_value < b.2.priority.get_value ∨
      (a.2.priority.get_value = b.2.priority.get_value ∧
        a.2.created_time < b.2.created_time)))) := by
  unfold entryLt jobLt
  split <;>
    simp only [ne_eq, not_not, Bool.or_eq_true, Bool.and_eq_true,
      decide_eq_true_eq] at * <;>
    omega

/-- Boolean negation bridge for `entryLt`. -/
theorem entryLt_false_iff (a b : QEntry) :
    entryLt a b = false ↔ ¬ (entryLt a b = true) := by
  cases h : entryLt a b <;> simp

/-- `entryLt` never holds reflexively. -/
theorem entryLt_irrefl (a : QEntry) : entryLt a a = false := by
  rw [entryLt_false_iff, entryLt_iff]
  omega

/-- `entryLt` is transitive. -/
theorem entryLt_trans {a b c : QEntry} (h1 : entryLt a b = true)
    (h2 : entryLt b c = true) : entryLt a c = true := by
  rw [entryLt_iff] at h1 h2 ⊢
  omega

/-- If `b` is not below `a` but is below `c`, then `a` is below `c`. -/
theorem entryLt_of_not_lt_of_lt {a b c : QEntry} (h1 : entryLt b a = false)
    (h2 : entryLt b c = true) : entryLt a c = true := by
  rw [entryLt_false_iff, entryLt_iff] at h1
  rw [entryLt_iff] at h2 ⊢
  omega

/-- Removing one occurrence of a member splits a list up to permutation. -/
theorem perm_cons_erase_beq {α : Type _} [BEq α] [LawfulBEq α] {a : α}
    {l : List α} (h : a ∈ l) : l.Perm (a :: l.erase a) := by
  induction l with
  | nil => cases h
  | cons x xs ih =>
      rw [List.erase_cons]
      by_cases hx : x = a
      · subst hx
        simp
      · have hbeq : (x == a) = false := by
          simp [hx]
        rw [hbeq]
        simp only [Bool.false_eq_true, if_false]
        have hmem : a ∈ xs := by
          rcases List.mem_cons.mp h with h' | h'
          · exact absurd h'.symm hx
          · exact h'
        exact ((ih hmem).cons x).trans (List.Perm.swap a x (xs.erase a))

/-- The entry a heap pop selects is one of the queue's entries. -/
theorem selMin_mem : ∀ (es : List QEntry) (e : QEntry), selMin e es ∈ e :: es := by
  intro es
  induction es with
  | nil => intro e; simp [selMin]
  | cons x xs ih =>
      intro e
      unfold selMin
      by_cases h : entryLt x e = true
      · rw [if_pos h]
        have := ih x
        simp only [List.mem_cons] at this ⊢
        tauto
      · rw [if_neg h]
        have := ih e
        simp only [List.mem_cons] at this ⊢
        tauto

/-- No queue entry compares strictly below the entry a heap pop selects. -/
theorem selMin_not_lt : ∀ (es : List QEntry) (e x : QEntry), x ∈ e :: es →
    entryLt x (selMin e es) = false := by
  intro es
  induction es with
  | nil =>
      intro e x hx
      simp only [List.mem_cons, List.not_mem_nil, or_false] at hx
      subst hx
      simpa [selMin] using entryLt_irrefl x
  | cons y ys ih =>
      intro e x hx
      unfold selMin
      simp only [List.mem_cons] at hx
      by_cases h : entryLt y e = true
      · rw [if_pos h]
        rcases hx with hx | hx | hx
        · subst hx
          rw [entryLt_false_iff]
          intro hc
          have hy := ih y y (by simp)
          exact absurd (entryLt_trans h hc) (by simp [hy])
        · exact ih y x (by simp [hx])
        · exact ih y x (by simp [hx])
      · rw [if_neg h]
        have h' : entryLt y e = false := by
          cases hb : entryLt y e
          · rfl
          · exact absurd hb h
        rcases hx with hx | hx | hx
        · exact ih e x (by simp [hx])
        · subst hx
          rw [entryLt_false_iff]
          intro hc
          have he := ih e e (by simp)
          exact absurd (entryLt_of_not_lt_of_lt h' hc) (by simp [he])
        · exact ih e x (by simp [hx])

/-- Draining the queue with enough fuel is a permutation of the queue: no
entry is skipped, duplicated or left behind. -/
theorem popAllAux_perm : ∀ (n : Nat) (q : List QEntry), q.length ≤ n →
    (popAllAux n q).Perm q := by
  intro n
  induction n with
  | zero =>
      intro q hq
      have : q = [] := List.length_eq_zero.mp (by omega)
      subst this
      simp [popAllAux]
  | succ n ih =>
      intro q hq
      match q with
      | [] => simp [popAllAux]
      | e :: es =>
          have hm : selMin e es ∈ e :: es := selMin_mem es e
          have hlen : ((e :: es).erase (selMin e es)).length ≤ n := by
            rw [List.length_erase_of_mem hm]
            simp only [List.length_cons] at hq ⊢
            omega
          show (selMin e es :: popAllAux n ((e :: es).erase (selMin e es))).Perm (e :: es)
          exact ((ih _ hlen).cons (selMin e es)).trans (perm_cons_erase_beq hm).symm

/-- Along the drain order, no later entry compares strictly below an earlier
one. -/
theorem popAllAux_pairwise : ∀ (n : Nat) (q : List QEntry), q.length ≤ n →
    (popAllAux n q).Pairwise (fun a b => entryLt b a = false) := by
  intro n
  induction n with
  | zero => intro q _; simp [popAllAux]
  | succ n ih =>
      intro q hq
      match q with
      | [] => simp [popAllAux]
      | e :: es =>
          have hm : selMin e es ∈ e :: es := selMin_mem es e
          have hlen : ((e :: es).erase (selMin e es)).length ≤ n := by
            rw [List.length_erase_of_mem hm]
            simp only [List.length_cons] at hq ⊢
            omega
          refine List.pairwise_cons.mpr ⟨?_, ih _ hlen⟩
          intro y hy
          have hy' : y ∈ (e :: es).erase (selMin e es) :=
            (popAllAux_perm n _ hlen).mem_iff.mp hy
          exact selMin_not_lt es e y (List.mem_of_mem_erase hy')

/-- `popAll` is a permutation of the queue. -/
theorem popAll_perm (q : List QEntry) : (popAll q).Perm q :=
  popAllAux_perm q.length q (Nat.le_refl _)

/-- `popAll` never pops an entry strictly below a later one. -/
theorem popAll_pairwise (q : List QEntry) :
    (popAll q).Pairwise (fun a b => entryLt b a = false) :=
  popAllAux_pairwise q.length q (Nat.le_refl _)

/-- C3: with ranks HIGH=0 < MEDIUM=1 < LOW=2, popping returns entries in
nondecreasing (priority rank, creation timestamp) order — strictly smaller
rank always first, ties broken by earlier creation time — and the pop order
is a permutation of the queue (no entry skipped or reordered otherwise). -/
theorem c3_pop_order (q : List QEntry)
    (hwf : ∀ e ∈ q, e.1 = e.2.priority.get_value) :
    Priority.get_value .HIGH = 0 ∧ Priority.get_value .MEDIUM = 1 ∧
    Priority.get_value .LOW = 2 ∧
    (popAll q).Perm q ∧
    (popAll q).Pairwise (fun a b =>
      a.2.priority.get_value < b.2.priority.get_value ∨
        (a.2.priority.get_value = b.2.priority.get_value ∧
          a.2.created_time ≤ b.2.created_time)) := by
  refine ⟨rfl, rfl, rfl, popAll_perm q, ?_⟩
  refine List.Pairwise.imp_of_mem ?_ (popAll_pairwise q)
  intro a b ha hb hab
  have ha' : a ∈ q := (popAll_perm q).subset ha
  have hb' : b ∈ q := (popAll_perm q).subset hb
  have hwa := hwf a ha'
  have hwb := hwf b hb'
  rw [entryLt_false_iff, entryLt_iff, hwa, hwb] at hab
  omega

/-- Witness for C3 on the spec's example: J1(LOW, t=0), J2(HIGH, t=1),
J3(MEDIUM, t=2). -/
theorem c3_pop_order_witness :
    (∀ e ∈ [((2 : Nat), IngestionJob.mk "J1" [] .LOW 0 []),
            (0, IngestionJob.mk "J2" [] .HIGH 1 []),
            (1, IngestionJob.mk "J3" [] .MEDIUM 2 [])],
        e.1 = e.2.priority.get_value) ∧
    (Priority.get_value .HIGH = 0 ∧ Priority.get_value .MEDIUM = 1 ∧
      Priority.get_value .LOW = 2 ∧
      (popAll [((2 : Nat), IngestionJob.mk "J1" [] .LOW 0 []),
               (0, IngestionJob.mk "J2" [] .HIGH 1 []),
               (1, IngestionJob.mk "J3" [] .MEDIUM 2 [])]).Perm
        [((2 : Nat), IngestionJob.mk "J1" [] .LOW 0 []),
         (0, IngestionJob.mk "J2" [] .HIGH 1 []),
         (1, IngestionJob.mk "J3" [] .MEDIUM 2 [])] ∧
      (popAll [((2 : Nat), IngestionJob.mk "J1" [] .LOW 0 []),
               (0, IngestionJob.mk "J2" [] .HIGH 1 []),
               (1, IngestionJob.mk "J3" [] .MEDIUM 2 [])]).Pairwise (fun a b =>
        a.2.priority.get_value < b.2.priority.get_value ∨
          (a.2.priority.get_value = b.2.priority.get_value ∧
            a.2.created_time ≤ b.2.created_time))) :=
  ⟨by decide, c3_pop_order _ (by decide)⟩

/-! ### C6: rate limiting -/

/-- An idle iteration: no entry available after the throttle check. -/
theorem schedIter_nil (ar : List QEntry) (δ : ℚ) (st : SchedState)
    (hq : st.queue ++ ar = []) :
    schedIter ar δ st =
      ({ clock := (if st.clock + δ - st.last < 5 then st.last + 5 else st.clock + δ) + 1 / 10,
         last := st.last, queue := [] }, none) := by
  unfold schedIter
  rw [hq]

/-- A dispatching iteration: pop the heap minimum, process its batches
back-to-back (1 time unit each), record the finish time. -/
theorem schedIter_cons (ar : List QEntry) (δ : ℚ) (st : SchedState)
    (e : QEntry) (es : List QEntry) (hq : st.queue ++ ar = e :: es) :
    schedIter ar δ st =
      ({ clock := (if st.clock + δ - st.last < 5 then st.last + 5 else st.clock + δ) +
            (selMin e es).2.batches.length,
         last := (if st.clock + δ - st.last < 5 then st.last + 5 else st.clock + δ) +
            (selMin e es).2.batches.length,
         queue := (e :: es).erase (selMin e es) },
       some { start := if st.clock + δ - st.last < 5 then st.last + 5 else st.clock + δ,
              finish := (if st.clock + δ - st.last < 5 then st.last + 5 else st.clock + δ) +
                (selMin e es).2.batches.length,
              job := (selMin e es).2 }) := by
  unfold schedIter
  rw [hq]

/-- C6: over any run of the loop (any interleaving of arrivals and elapsed
real time), each dispatch starts at least 5 time units after the previous
dispatch finished, and a dispatch's own duration is exactly its batch count
(1 unit per batch — the 5-unit floor is per job, not per batch). -/
theorem c6_rate_limit : ∀ (steps : List (List QEntry × ℚ)) (st : SchedState),
    ((schedRun st steps).2.Chain' fun r1 r2 => r1.finish + 5 ≤ r2.start) ∧
    (∀ r ∈ (schedRun st steps).2, r.finish = r.start + r.job.batches.length) ∧
    (∀ r, ((schedRun st steps).2.head? = some r) → st.last + 5 ≤ r.start) := by
  intro steps
  induction steps with
  | nil =>
      intro st
      refine ⟨by simp [schedRun], by simp [schedRun], ?_⟩
      intro r hr
      simp [schedRun] at hr
  | cons step rest ih =>
      intro st
      obtain ⟨ar, δ⟩ := step
      have hstart : st.last + 5 ≤
          (if st.clock + δ - st.last < 5 then st.last + 5 else st.clock + δ) := by
        split
        · exact le_refl _
        · next h => linarith [not_lt.mp h]
      cases hq : st.queue ++ ar with
      | nil =>
          obtain ⟨ihc, ihd, ihh⟩ := ih (SchedState.mk
            ((if st.clock + δ - st.last < 5 then st.last + 5 else st.clock + δ) + 1 / 10)
            st.last [])
          simp only [schedRun, schedIter_nil ar δ st hq, Option.toList_none,
            List.nil_append]
          exact ⟨ihc, ihd, fun r hr => ihh r hr⟩
      | cons e es =>
          obtain ⟨ihc, ihd, ihh⟩ := ih (SchedState.mk
            ((if st.clock + δ - st.last < 5 then st.last + 5 else st.clock + δ) +
              (selMin e es).2.batches.length)
            ((if st.clock + δ - st.last < 5 then st.last + 5 else st.clock + δ) +
              (selMin e es).2.batches.length)
            ((e :: es).erase (selMin e es)))
          simp only [schedRun, schedIter_cons ar δ st e es hq, Option.toList_some,
            List.singleton_append]
          refine ⟨?_, ?_, ?_⟩
          · refine List.chain'_cons'.mpr ⟨?_, ihc⟩
            intro b hb
            exact ihh b (Option.mem_def.mp hb)
          · intro r hr
            rcases List.mem_cons.mp hr with hr | hr
            · subst hr
              rfl
            · exact ihd r hr
          · intro r hr
            simp only [List.head?_cons, Option.some.injEq] at hr
            subst hr
            exact hstart

/-- Witness for C6: a 2-iteration run; the first dispatch starts 5 units
after the initial `last_processed_time`. -/
theorem c6_rate_limit_witness :
    ((schedRun (SchedState.mk 0 0 [])
        [([((0 : Nat), IngestionJob.mk "a" [1] .HIGH 0 [Batch.mk "b" [1] .YET_TO_START])], 0)]).2.head?
      = some (DispatchRec.mk 5 6 (IngestionJob.mk "a" [1] .HIGH 0 [Batch.mk "b" [1] .YET_TO_START]))) ∧
    (SchedState.mk (0 : ℚ) 0 []).last + 5 ≤
      (DispatchRec.mk 5 6 (IngestionJob.mk "a" [1] .HIGH 0 [Batch.mk "b" [1] .YET_TO_START])).start := by
  have hh : (schedRun (SchedState.mk 0 0 [])
      [([((0 : Nat), IngestionJob.mk "a" [1] .HIGH 0 [Batch.mk "b" [1] .YET_TO_START])], 0)]).2.head?
      = some (DispatchRec.mk 5 6 (IngestionJob.mk "a" [1] .HIGH 0 [Batch.mk "b" [1] .YET_TO_START])) := by
    norm_num [schedRun, schedIter, selMin]
  exact ⟨hh, (c6_rate_limit _ _).2.2 _ hh⟩

/-! ### Dispatch-trace characterisation (memory side) -/

/-- Membership from an indexed lookup. -/
theorem mem_of_getElemQ {α : Type _} {l : List α} {i : Nat} {a : α}
    (h : l[i]? = some a) : a ∈ l := by
  obtain ⟨hl, he⟩ := List.getElem?_eq_some.mp h
  rw [← he]
  exact List.getElem_mem hl

/-- Setting an index to the value it already holds changes nothing. -/
theorem list_set_same {α : Type _} : ∀ (l : List α) (k : Nat) (v : α),
    l[k]? = some v → l.set k v = l := by
  intro l
  induction l with
  | nil => intro k v h; cases h
  | cons x xs ih =>
      intro k v h
      cases k with
      | zero =>
          simp only [List.getElem?_cons_zero, Option.some.injEq] at h
          simp [h]
      | succ k =>
          simp only [List.getElem?_cons_succ] at h
          simp [List.set_cons_succ, ih k v h]

/-- One dispatch event rewrites a single batch's status in memory and
leaves everything else of the job alone. -/
theorem applyEvent_getElem (st : IngestionJob × Store) (e : Event) (i : Nat) :
    (applyEvent st e).1.batches[i]? =
      (st.1.batches[i]?).map
        (fun b => { b with status := (statusOfEvent i e).getD b.status }) := by
  cases e with
  | work k =>
      simp only [applyEvent, statusOfEvent]
      cases h : st.1.batches[i]? <;> simp [h]
  | trigger k =>
      simp only [applyEvent]
      cases hk : st.1.batches[k]? with
      | none =>
          by_cases hik : k = i
          · subst hik
            simp [hk, statusOfEvent]
          · cases h : st.1.batches[i]? <;>
              simp [h, statusOfEvent, hik]
      | some b =>
          have hklen : k < st.1.batches.length := (List.getElem?_eq_some.mp hk).1
          by_cases hik : k = i
          · subst hik
            simp [List.getElem?_set_self hklen, hk, statusOfEvent]
          · rw [List.getElem?_set_ne hik]
            cases h : st.1.batches[i]? <;> simp [h, statusOfEvent, hik]
  | complete k =>
      simp only [applyEvent]
      cases hk : st.1.batches[k]? with
      | none =>
          by_cases hik : k = i
          · subst hik
            simp [hk, statusOfEvent]
          · cases h : st.1.batches[i]? <;>
              simp [h, statusOfEvent, hik]
      | some b =>
          have hklen : k < st.1.batches.length := (List.getElem?_eq_some.mp hk).1
          by_cases hik : k = i
          · subst hik
            simp [List.getElem?_set_self hklen, hk, statusOfEvent]
          · rw [List.getElem?_set_ne hik]
            cases h : st.1.batches[i]? <;> simp [h, statusOfEvent, hik]

/-- Unfolding one event off a dispatch run. -/
theorem runDispatch_cons (st : IngestionJob × Store) (e : Event) (p : List Event) :
    runDispatch st (e :: p) = runDispatch (applyEvent st e) p := rfl

/-- After running a trace, batch `i`'s in-memory entry is the initial entry
with its status overwritten by the last trigger/complete event for `i` (if
any). -/
theorem runDispatch_getElem : ∀ (p : List Event) (st : IngestionJob × Store) (i : Nat),
    (runDispatch st p).1.batches[i]? =
      (st.1.batches[i]?).map
        (fun b => { b with status := (lastStatusEvent i p).getD b.status }) := by
  intro p
  induction p with
  | nil =>
      intro st i
      show st.1.batches[i]? = _
      cases h : st.1.batches[i]? with
      | none => rfl
      | some b => rfl
  | cons e p' ih =>
      intro st i
      rw [runDispatch_cons, ih, applyEvent_getElem]
      cases h : st.1.batches[i]? with
      | none => rfl
      | some b =>
          cases hls : lastStatusEvent i p' with
          | none =>
              show some _ = some _
              rw [show lastStatusEvent i (e :: p') =
                  match lastStatusEvent i p' with
                  | some s => some s
                  | none => statusOfEvent i e from rfl, hls]
              rfl
          | some s =>
              show some _ = some _
              rw [show lastStatusEvent i (e :: p') =
                  match lastStatusEvent i p' with
                  | some s => some s
                  | none => statusOfEvent i e from rfl, hls]
              rfl

/-! ### Dispatch-trace characterisation (store side) -/

/-- The `update_redis_status` scan walks past records that do not mention
the batch identifier. -/
theorem update_redis_skip (b : Batch) : ∀ (s1 rest : Store),
    (∀ pr ∈ s1, recordHasBatch b.batch_id pr.2 = false) →
    update_redis_status b (s1 ++ rest) = s1 ++ update_redis_status b rest := by
  intro s1
  induction s1 with
  | nil => intro rest _; rfl
  | cons pr s1' ih =>
      intro rest h
      obtain ⟨k0, r0⟩ := pr
      have h0 : recordHasBatch b.batch_id r0 = false := h (k0, r0) (by simp)
      show update_redis_status b ((k0, r0) :: (s1' ++ rest)) = _
      simp only [update_redis_status]
      rw [if_neg (by simp [h0])]
      rw [ih rest (fun q hq => h q (by simp [hq]))]
      rfl

/-- The scan stops at the first record containing the batch identifier and
rewrites only that batch entry's status. -/
theorem update_redis_hit (b : Batch) (key : String) (r : JobRecord) (rest : Store)
    (h : recordHasBatch b.batch_id r = true) :
    update_redis_status b ((key, r) :: rest) =
      (key, { r with batches := setFirstBatchStatus b.batch_id b.status r.batches }) :: rest := by
  simp only [update_redis_status]
  rw [if_pos h]

/-- A record holding the serialised batches of a list containing `b`
matches the scan. -/
theorem recordHasBatch_to_dict {l : List Batch} {b : Batch} (hb : b ∈ l)
    (iid : String) (ov : BatchStatus) :
    recordHasBatch b.batch_id (JobRecord.mk iid ov (l.map Batch.to_dict)) = true := by
  simp only [recordHasBatch, List.any_eq_true, decide_eq_true_eq]
  exact ⟨Batch.to_dict b, List.mem_map_of_mem Batch.to_dict hb, rfl⟩

/-- With pairwise-distinct batch identifiers, rewriting the first matching
entry of the serialised list is exactly rewriting the entry at the batch's
index. -/
theorem setFirst_map (s : BatchStatus) : ∀ (l : List Batch) (k : Nat) (b : Batch),
    (l.map Batch.batch_id).Nodup → l[k]? = some b →
    setFirstBatchStatus b.batch_id s (l.map Batch.to_dict) =
      (l.set k { b with status := s }).map Batch.to_dict := by
  intro l
  induction l with
  | nil => intro k b _ hk; cases hk
  | cons hd tl ih =>
      intro k b hnd hk
      cases k with
      | zero =>
          simp only [List.getElem?_cons_zero, Option.some.injEq] at hk
          subst hk
          show setFirstBatchStatus hd.batch_id s (Batch.to_dict hd :: tl.map Batch.to_dict) = _
          simp only [setFirstBatchStatus, Batch.to_dict]
          rw [if_pos trivial]
          rfl
      | succ k =>
          simp only [List.getElem?_cons_succ] at hk
          have hbmem : b ∈ tl := mem_of_getElemQ hk
          have hne : hd.batch_id ≠ b.batch_id := by
            have hnotin : hd.batch_id ∉ tl.map Batch.batch_id := by
              simp only [List.map_cons, List.nodup_cons] at hnd
              exact hnd.1
            intro hc
            exact hnotin (hc ▸ List.mem_map_of_mem Batch.batch_id hbmem)
          have hndtl : (tl.map Batch.batch_id).Nodup := by
            simp only [List.map_cons, List.nodup_cons] at hnd
            exact hnd.2
          show setFirstBatchStatus b.batch_id s (Batch.to_dict hd :: tl.map Batch.to_dict) = _
          simp only [setFirstBatchStatus, Batch.to_dict]
          rw [if_neg hne, ih k b hndtl hk]
          rfl

/-- Dispatch events never change any batch identifier. -/
theorem applyEvent_bids (st : IngestionJob × Store) (e : Event) :
    (applyEvent st e).1.batches.map Batch.batch_id =
      st.1.batches.map Batch.batch_id := by
  cases e with
  | work k => rfl
  | trigger k =>
      simp only [applyEvent]
      cases hk : st.1.batches[k]? with
      | none => rfl
      | some b =>
          show (st.1.batches.set k (Batch.mk b.batch_id b.ids BatchStatus.TRIGGERED)).map
              Batch.batch_id = _
          rw [List.map_set]
          apply list_set_same
          rw [List.getElem?_map, hk]
          rfl
  | complete k =>
      simp only [applyEvent]
      cases hk : st.1.batches[k]? with
      | none => rfl
      | some b =>
          show (st.1.batches.set k (Batch.mk b.batch_id b.ids BatchStatus.COMPLETED)).map
              Batch.batch_id = _
          rw [List.map_set]
          apply list_set_same
          rw [List.getElem?_map, hk]
          rfl

/-- One dispatch event keeps the store in canonical form: the owning job's
record carries exactly the serialised in-memory batches (with the same
frozen top-level status `ov`), and all other records are untouched. -/
theorem applyEvent_canon_snd (j : IngestionJob) (s1 s2 : Store) (key iid : String)
    (ov : BatchStatus) (e : Event)
    (hnd : (j.batches.map Batch.batch_id).Nodup)
    (hs1 : ∀ pr ∈ s1, ∀ bid ∈ j.batches.map Batch.batch_id,
      recordHasBatch bid pr.2 = false) :
    (applyEvent (j, s1 ++ (key, JobRecord.mk iid ov (j.batches.map Batch.to_dict)) :: s2) e).2 =
      s1 ++ (key, JobRecord.mk iid ov
        ((applyEvent (j, s1 ++ (key, JobRecord.mk iid ov (j.batches.map Batch.to_dict)) :: s2) e).1.batches.map
          Batch.to_dict)) :: s2 := by
  cases e with
  | work k => rfl
  | trigger k =>
      simp only [applyEvent]
      cases hk : j.batches[k]? with
      | none => rfl
      | some b =>
          have hmem : b ∈ j.batches := mem_of_getElemQ hk
          have hbid : b.batch_id ∈ j.batches.map Batch.batch_id :=
            List.mem_map_of_mem Batch.batch_id hmem
          show update_redis_status (Batch.mk b.batch_id b.ids BatchStatus.TRIGGERED)
              (s1 ++ (key, JobRecord.mk iid ov (j.batches.map Batch.to_dict)) :: s2) =
            s1 ++ (key, JobRecord.mk iid ov
              ((j.batches.set k (Batch.mk b.batch_id b.ids BatchStatus.TRIGGERED)).map
                Batch.to_dict)) :: s2
          rw [update_redis_skip (Batch.mk b.batch_id b.ids BatchStatus.TRIGGERED) s1 _
              (fun pr hpr => hs1 pr hpr b.batch_id hbid),
            update_redis_hit (Batch.mk b.batch_id b.ids BatchStatus.TRIGGERED) key _ s2
              (recordHasBatch_to_dict hmem iid ov)]
          show s1 ++ (key, JobRecord.mk iid ov
              (setFirstBatchStatus b.batch_id BatchStatus.TRIGGERED
                (j.batches.map Batch.to_dict))) :: s2 = _
          rw [setFirst_map BatchStatus.TRIGGERED j.batches k b hnd hk]
  | complete k =>
      simp only [applyEvent]
      cases hk : j.batches[k]? with
      | none => rfl
      | some b =>
          have hmem : b ∈ j.batches := mem_of_getElemQ hk
          have hbid : b.batch_id ∈ j.batches.map Batch.batch_id :=
            List.mem_map_of_mem Batch.batch_id hmem
          show update_redis_status (Batch.mk b.batch_id b.ids BatchStatus.COMPLETED)
              (s1 ++ (key, JobRecord.mk iid ov (j.batches.map Batch.to_dict)) :: s2) =
            s1 ++ (key, JobRecord.mk iid ov
              ((j.batches.set k (Batch.mk b.batch_id b.ids BatchStatus.COMPLETED)).map
                Batch.to_dict)) :: s2
          rw [update_redis_skip (Batch.mk b.batch_id b.ids BatchStatus.COMPLETED) s1 _
              (fun pr hpr => hs1 pr hpr b.batch_id hbid),
            update_redis_hit (Batch.mk b.batch_id b.ids BatchStatus.COMPLETED) key _ s2
              (recordHasBatch_to_dict hmem iid ov)]
          show s1 ++ (key, JobRecord.mk iid ov
              (setFirstBatchStatus b.batch_id BatchStatus.COMPLETED
                (j.batches.map Batch.to_dict))) :: s2 = _
          rw [setFirst_map BatchStatus.COMPLETED j.batches k b hnd hk]

/-- Running a whole trace keeps the store in canonical form: after every
prefix, the owning job's persisted record carries exactly the serialised
in-memory batches and the frozen top-level status `ov`, and every other
record is untouched. -/
theorem runDispatch_store : ∀ (p : List Event) (j : IngestionJob) (s1 s2 : Store)
    (key iid : String) (ov : BatchStatus),
    (j.batches.map Batch.batch_id).Nodup →
    (∀ pr ∈ s1, ∀ bid ∈ j.batches.map Batch.batch_id,
      recordHasBatch bid pr.2 = false) →
    (runDispatch (j, s1 ++ (key, JobRecord.mk iid ov (j.batches.map Batch.to_dict)) :: s2) p).2 =
      s1 ++ (key, JobRecord.mk iid ov
        ((runDispatch (j, s1 ++ (key, JobRecord.mk iid ov (j.batches.map Batch.to_dict)) :: s2) p).1.batches.map
          Batch.to_dict)) :: s2 := by
  intro p
  induction p with
  | nil => intro j s1 s2 key iid ov _ _; rfl
  | cons e p' ih =>
      intro j s1 s2 key iid ov hnd hs1
      have hsnd := applyEvent_canon_snd j s1 s2 key iid ov e hnd hs1
      have hpair : applyEvent (j, s1 ++ (key, JobRecord.mk iid ov (j.batches.map Batch.to_dict)) :: s2) e =
          ((applyEvent (j, s1 ++ (key, JobRecord.mk iid ov (j.batches.map Batch.to_dict)) :: s2) e).1,
            s1 ++ (key, JobRecord.mk iid ov
              ((applyEvent (j, s1 ++ (key, JobRecord.mk iid ov (j.batches.map Batch.to_dict)) :: s2) e).1.batches.map
                Batch.to_dict)) :: s2) := by
        rw [← hsnd]
      have hbids := applyEvent_bids
        (j, s1 ++ (key, JobRecord.mk iid ov (j.batches.map Batch.to_dict)) :: s2) e
      have hnd' : (((applyEvent (j, s1 ++ (key, JobRecord.mk iid ov (j.batches.map Batch.to_dict)) :: s2) e).1.batches.map
          Batch.batch_id)).Nodup := by
        rw [hbids]; exact hnd
      have hs1' : ∀ pr ∈ s1,
          ∀ bid ∈ (applyEvent (j, s1 ++ (key, JobRecord.mk iid ov (j.batches.map Batch.to_dict)) :: s2) e).1.batches.map
            Batch.batch_id, recordHasBatch bid pr.2 = false := by
        intro pr hpr bid hbid
        rw [hbids] at hbid
        exact hs1 pr hpr bid hbid
      rw [runDispatch_cons, hpair]
      exact ih _ s1 s2 key iid ov hnd' hs1'

/-! ### C1: persisted record vs. in-memory state -/

/-- C1 (amended): after every batch transition performed by the scheduler
loop (any trace of trigger/complete events), the persisted record for the
owning job carries exactly the serialised in-memory batches — per-batch
statuses stay consistent — but its top-level overall status field is not
recomputed: it keeps the value `get_overall_status` had at ingestion time. -/
theorem c1_record_batch_sync (j : IngestionJob) (s1 s2 : Store) (p : List Event)
    (hnd : (j.batches.map Batch.batch_id).Nodup)
    (hs1 : ∀ pr ∈ s1, ∀ bid ∈ j.batches.map Batch.batch_id,
      recordHasBatch bid pr.2 = false)
    (hkeys : ∀ pr ∈ s1, pr.1 ≠ "ingestion:" ++ j.ingestion_id) :
    storeGet (runDispatch (j, s1 ++ ("ingestion:" ++ j.ingestion_id, j.to_dict) :: s2) p).2
        ("ingestion:" ++ j.ingestion_id) =
      some (JobRecord.mk j.ingestion_id j.get_overall_status
        ((runDispatch (j, s1 ++ ("ingestion:" ++ j.ingestion_id, j.to_dict) :: s2) p).1.batches.map
          Batch.to_dict)) := by
  have hdict : j.to_dict =
      JobRecord.mk j.ingestion_id j.get_overall_status (j.batches.map Batch.to_dict) := rfl
  rw [hdict,
    runDispatch_store p j s1 s2 ("ingestion:" ++ j.ingestion_id) j.ingestion_id
      j.get_overall_status hnd hs1]
  exact storeGet_append s1 ("ingestion:" ++ j.ingestion_id) _ s2 hkeys

/-- Counterexample to C1 as stated: one job with a single batch; after the
scheduler's TRIGGERED transition the persisted record's top-level status
field still reads `yet_to_start`, while §3's derivation rule applied to the
batch statuses stored in that same record yields `triggered`. -/
theorem c1_overall_field_counterexample :
    storeGet (runDispatch
        (IngestionJob.mk "j" [1] .HIGH 0 [Batch.mk "b" [1] .YET_TO_START],
         [("ingestion:j",
           (IngestionJob.mk "j" [1] .HIGH 0 [Batch.mk "b" [1] .YET_TO_START]).to_dict)])
        [Event.trigger 0]).2 "ingestion:j" =
      some (JobRecord.mk "j" .YET_TO_START [BatchRecord.mk "b" [1] .TRIGGERED]) ∧
    overallOfRecord (JobRecord.mk "j" .YET_TO_START [BatchRecord.mk "b" [1] .TRIGGERED]) =
      .TRIGGERED ∧
    (JobRecord.mk "j" .YET_TO_START [BatchRecord.mk "b" [1] .TRIGGERED]).status ≠
      overallOfRecord (JobRecord.mk "j" .YET_TO_START [BatchRecord.mk "b" [1] .TRIGGERED]) := by
  refine ⟨by decide, by decide, by decide⟩

/-- Witness for the amended C1 at a concrete one-batch job after its
TRIGGERED transition. -/
theorem c1_record_batch_sync_witness :
    ((((IngestionJob.mk "j" [1] .HIGH 0 [Batch.mk "b" [1] .YET_TO_START]).batches.map
        Batch.batch_id)).Nodup) ∧
    storeGet (runDispatch
        (IngestionJob.mk "j" [1] .HIGH 0 [Batch.mk "b" [1] .YET_TO_START],
         [] ++ ("ingestion:" ++ (IngestionJob.mk "j" [1] .HIGH 0 [Batch.mk "b" [1] .YET_TO_START]).ingestion_id,
           (IngestionJob.mk "j" [1] .HIGH 0 [Batch.mk "b" [1] .YET_TO_START]).to_dict) :: [])
        [Event.trigger 0]).2
        ("ingestion:" ++ (IngestionJob.mk "j" [1] .HIGH 0 [Batch.mk "b" [1] .YET_TO_START]).ingestion_id) =
      some (JobRecord.mk
        (IngestionJob.mk "j" [1] .HIGH 0 [Batch.mk "b" [1] .YET_TO_START]).ingestion_id
        (IngestionJob.mk "j" [1] .HIGH 0 [Batch.mk "b" [1] .YET_TO_START]).get_overall_status
        ((runDispatch
          (IngestionJob.mk "j" [1] .HIGH 0 [Batch.mk "b" [1] .YET_TO_START],
           [] ++ ("ingestion:" ++ (IngestionJob.mk "j" [1] .HIGH 0 [Batch.mk "b" [1] .YET_TO_START]).ingestion_id,
             (IngestionJob.mk "j" [1] .HIGH 0 [Batch.mk "b" [1] .YET_TO_START]).to_dict) :: [])
          [Event.trigger 0]).1.batches.map Batch.to_dict)) :=
  ⟨by decide,
   c1_record_batch_sync (IngestionJob.mk "j" [1] .HIGH 0 [Batch.mk "b" [1] .YET_TO_START])
     [] [] [Event.trigger 0] (by decide) (by simp) (by simp)⟩

/-! ### Trace order and lifecycle lemmas -/

/-- Unfolding `lastStatusEvent` over a cons. -/
theorem lastStatusEvent_cons (i : Nat) (e : Event) (p : List Event) :
    lastStatusEvent i (e :: p) =
      match lastStatusEvent i p with
      | some s => some s
      | none => statusOfEvent i e := rfl

/-- An event not concerning batch `i` assigns it no status. -/
theorem statusOfEvent_none (i : Nat) (e : Event)
    (h : ¬ (Event.isFor i e = true)) : statusOfEvent i e = none := by
  cases e with
  | trigger k =>
      simp only [Event.isFor, Event.idx, decide_eq_true_eq] at h
      simp [statusOfEvent, h]
  | work k => rfl
  | complete k =>
      simp only [Event.isFor, Event.idx, decide_eq_true_eq] at h
      simp [statusOfEvent, h]

/-- `lastStatusEvent` over an append: the right part wins when it assigns a
status. -/
theorem lastStatusEvent_append (i : Nat) : ∀ (p q : List Event),
    lastStatusEvent i (p ++ q) =
      match lastStatusEvent i q with
      | some s => some s
      | none => lastStatusEvent i p := by
  intro p
  induction p with
  | nil =>
      intro q
      simp only [List.nil_append]
      cases h : lastStatusEvent i q with
      | none => rfl
      | some s => rfl
  | cons e p' ih =>
      intro q
      show lastStatusEvent i (e :: (p' ++ q)) = _
      rw [lastStatusEvent_cons, ih]
      cases h : lastStatusEvent i q with
      | none => rfl
      | some s => rfl

/-- Appending a single event either overrides the last status or keeps it. -/
theorem lastStatusEvent_concat (i : Nat) (p : List Event) (e : Event) :
    lastStatusEvent i (p ++ [e]) =
      match statusOfEvent i e with
      | some s => some s
      | none => lastStatusEvent i p := by
  rw [lastStatusEvent_append]
  rfl

/-- The last status for batch `i` only depends on the events concerning `i`. -/
theorem lastStatusEvent_filter (i : Nat) : ∀ (p : List Event),
    lastStatusEvent i p = lastStatusEvent i (p.filter (Event.isFor i)) := by
  intro p
  induction p with
  | nil => rfl
  | cons e p' ih =>
      by_cases hf : Event.isFor i e = true
      · rw [List.filter_cons, if_pos hf, lastStatusEvent_cons, lastStatusEvent_cons, ih]
      · rw [List.filter_cons, if_neg hf, lastStatusEvent_cons,
          statusOfEvent_none i e hf, ih]
        cases lastStatusEvent i (p'.filter (Event.isFor i)) <;> rfl

/-- Filtering one batch's events out of another batch's block. -/
theorem filter_triple (i k : Nat) :
    [Event.trigger k, Event.work k, Event.complete k].filter (Event.isFor i) =
      if k = i then [Event.trigger k, Event.work k, Event.complete k] else [] := by
  by_cases h : k = i <;> simp [Event.isFor, Event.idx, h]

/-- Blocks of batches below `n ≤ i` contribute nothing to batch `i`. -/
theorem filter_flatMap_le (i : Nat) : ∀ (n : Nat), n ≤ i →
    (((List.range n).flatMap fun k =>
      [Event.trigger k, Event.work k, Event.complete k]).filter (Event.isFor i)) = [] := by
  intro n
  induction n with
  | zero => intro _; rfl
  | succ n ih =>
      intro h
      rw [List.range_succ, List.flatMap_append, List.filter_append, ih (by omega)]
      simp only [List.flatMap_cons, List.flatMap_nil, List.append_nil, List.nil_append]
      rw [filter_triple, if_neg (by omega)]

/-- In the dispatch trace, the events concerning batch `i` are exactly its
own block, in order: trigger, work, complete. -/
theorem filter_dispatchTrace (j : IngestionJob) (i : Nat) (hi : i < j.batches.length) :
    (dispatchTrace j).filter (Event.isFor i) =
      [Event.trigger i, Event.work i, Event.complete i] := by
  show (((List.range j.batches.length).flatMap fun k =>
    [Event.trigger k, Event.work k, Event.complete k]).filter (Event.isFor i)) = _
  generalize j.batches.length = n at hi
  induction n with
  | zero => omega
  | succ n ih =>
      rw [List.range_succ, List.flatMap_append, List.filter_append]
      by_cases hin : i < n
      · rw [ih hin]
        simp only [List.flatMap_cons, List.flatMap_nil, List.append_nil]
        rw [filter_triple, if_neg (by omega)]
        rfl
      · have hieq : i = n := by omega
        rw [filter_flatMap_le i n (by omega)]
        simp only [List.flatMap_cons, List.flatMap_nil, List.append_nil, List.nil_append]
        rw [filter_triple, if_pos (by omega)]
        rw [hieq]

/-- The prefixes of a three-element list. -/
theorem prefix_of_triple {α : Type _} {l : List α} {a b c : α}
    (h : l <+: [a, b, c]) :
    l = [] ∨ l = [a] ∨ l = [a, b] ∨ l = [a, b, c] := by
  obtain ⟨t, ht⟩ := h
  rcases l with _ | ⟨x, _ | ⟨y, _ | ⟨z, _ | ⟨w, l⟩⟩⟩⟩
  · exact Or.inl rfl
  · simp only [List.cons_append, List.nil_append, List.cons.injEq] at ht
    exact Or.inr (Or.inl (by rw [ht.1]))
  · simp only [List.cons_append, List.nil_append, List.cons.injEq] at ht
    exact Or.inr (Or.inr (Or.inl (by rw [ht.1, ht.2.1])))
  · simp only [List.cons_append, List.nil_append, List.cons.injEq] at ht
    exact Or.inr (Or.inr (Or.inr (by rw [ht.1, ht.2.1, ht.2.2.1])))
  · exfalso
    simp only [List.cons_append, List.cons.injEq] at ht
    exact absurd ht.2.2.2 (by simp)

/-- A list ending in `x` that is a prefix of `[a, b, c]` ends at the
position of `x`. -/
theorem append_single_pre {α : Type _} {fp : List α} {x a b c : α}
    (h : fp ++ [x] <+: [a, b, c]) :
    (fp = [] ∧ x = a) ∨ (fp = [a] ∧ x = b) ∨ (fp = [a, b] ∧ x = c) := by
  rcases prefix_of_triple h with h' | h' | h' | h'
  · exact absurd h' (by simp)
  · rcases fp with _ | ⟨u, fp⟩
    · simp only [List.nil_append, List.cons.injEq] at h'
      exact Or.inl ⟨rfl, h'.1⟩
    · exfalso
      simp only [List.cons_append, List.cons.injEq] at h'
      exact absurd h'.2 (by simp)
  · rcases fp with _ | ⟨u, _ | ⟨v, fp⟩⟩
    · exfalso
      simp only [List.nil_append, List.cons.injEq] at h'
      exact absurd h'.2 (by simp)
    · simp only [List.cons_append, List.nil_append, List.cons.injEq] at h'
      exact Or.inr (Or.inl ⟨by rw [h'.1], h'.2.1⟩)
    · exfalso
      simp only [List.cons_append, List.cons.injEq] at h'
      exact absurd h'.2.2 (by simp)
  · rcases fp with _ | ⟨u, _ | ⟨v, _ | ⟨w, fp⟩⟩⟩
    · exfalso
      simp only [List.nil_append, List.cons.injEq] at h'
      exact absurd h'.2 (by simp)
    · exfalso
      simp only [List.cons_append, List.nil_append, List.cons.injEq] at h'
      exact absurd h'.2.2 (by simp)
    · simp only [List.cons_append, List.nil_append, List.cons.injEq] at h'
      exact Or.inr (Or.inr ⟨by rw [h'.1, h'.2.1], h'.2.2.1⟩)
    · exfalso
      simp only [List.cons_append, List.cons.injEq] at h'
      exact absurd h'.2.2.2 (by simp)

/-- Along any prefix of a batch's block order, the last status for `i` is
determined by how far the filtered events go. -/
theorem lastStatus_quad (i : Nat) (p : List Event)
    (hf : p.filter (Event.isFor i) <+:
      [Event.trigger i, Event.work i, Event.complete i]) :
    (p.filter (Event.isFor i) = [] ∧ lastStatusEvent i p = none) ∨
    (p.filter (Event.isFor i) = [Event.trigger i] ∧
      lastStatusEvent i p = some .TRIGGERED) ∨
    (p.filter (Event.isFor i) = [Event.trigger i, Event.work i] ∧
      lastStatusEvent i p = some .TRIGGERED) ∨
    (p.filter (Event.isFor i) = [Event.trigger i, Event.work i, Event.complete i] ∧
      lastStatusEvent i p = some .COMPLETED) := by
  rcases prefix_of_triple hf with h | h | h | h
  · exact Or.inl ⟨h, by rw [lastStatusEvent_filter, h]; rfl⟩
  · refine Or.inr (Or.inl ⟨h, ?_⟩)
    rw [lastStatusEvent_filter, h]
    simp [lastStatusEvent, statusOfEvent]
  · refine Or.inr (Or.inr (Or.inl ⟨h, ?_⟩))
    rw [lastStatusEvent_filter, h]
    simp [lastStatusEvent, statusOfEvent]
  · refine Or.inr (Or.inr (Or.inr ⟨h, ?_⟩))
    rw [lastStatusEvent_filter, h]
    simp [lastStatusEvent, statusOfEvent]

/-- With all batches initially YET_TO_START, the in-memory status of batch
`i` after a trace is read off the last trigger/complete event for `i`. -/
theorem memStatus_run (j : IngestionJob) (s : Store) (p : List Event) (i : Nat)
    (hyet : ∀ b ∈ j.batches, b.status = .YET_TO_START)
    (hi : i < j.batches.length) :
    memStatus (runDispatch (j, s) p) i = (lastStatusEvent i p).getD .YET_TO_START := by
  unfold memStatus
  rw [runDispatch_getElem]
  show ((Option.map _ (j.batches[i]?)).map Batch.status).getD BatchStatus.YET_TO_START = _
  rw [List.getElem?_eq_getElem hi]
  have hb : (j.batches[i]).status = BatchStatus.YET_TO_START :=
    hyet _ (List.getElem_mem hi)
  cases hls : lastStatusEvent i p with
  | none => simp [hb]
  | some s => simp

/-! ### C4: monotone batch lifecycle -/

/-- C4: along the dispatch of a job whose batches start YET_TO_START, each
batch's status only ever moves forward along
YET_TO_START → TRIGGERED → COMPLETED: its rank never decreases along the
trace, every single event either leaves it unchanged or advances it exactly
one forward step (never skipping TRIGGERED), and the persisted record always
carries exactly the in-memory batch statuses, so the same holds of the
persisted record. -/
theorem c4_status_monotone (j : IngestionJob) (s1 s2 : Store) (s0 : Store) (i : Nat)
    (hyet : ∀ b ∈ j.batches, b.status = .YET_TO_START)
    (hi : i < j.batches.length)
    (hnd : (j.batches.map Batch.batch_id).Nodup)
    (hs1 : ∀ pr ∈ s1, ∀ bid ∈ j.batches.map Batch.batch_id,
      recordHasBatch bid pr.2 = false)
    (hkeys : ∀ pr ∈ s1, pr.1 ≠ "ingestion:" ++ j.ingestion_id)
    (hs0 : s0 = s1 ++ ("ingestion:" ++ j.ingestion_id, j.to_dict) :: s2) :
    (∀ p : List Event,
      storeGet (runDispatch (j, s0) p).2 ("ingestion:" ++ j.ingestion_id) =
        some (JobRecord.mk j.ingestion_id j.get_overall_status
          ((runDispatch (j, s0) p).1.batches.map Batch.to_dict))) ∧
    (∀ p1 p2 : List Event, p1 <+: p2 → p2 <+: dispatchTrace j →
      (memStatus (runDispatch (j, s0) p1) i).rank ≤
        (memStatus (runDispatch (j, s0) p2) i).rank) ∧
    (∀ (p : List Event) (e : Event), p ++ [e] <+: dispatchTrace j →
      memStatus (runDispatch (j, s0) (p ++ [e])) i =
          memStatus (runDispatch (j, s0) p) i ∨
        memStatus (runDispatch (j, s0) (p ++ [e])) i =
          (memStatus (runDispatch (j, s0) p) i).forwardStep) := by
  subst hs0
  have hft := filter_dispatchTrace j i hi
  refine ⟨?_, ?_, ?_⟩
  · intro p
    exact c1_record_batch_sync j s1 s2 p hnd hs1 hkeys
  · intro p1 p2 h12 h2t
    have h1t := h12.trans h2t
    rw [memStatus_run j _ p1 i hyet hi, memStatus_run j _ p2 i hyet hi]
    have hq1 := lastStatus_quad i p1 (by rw [← hft]; exact h1t.filter (Event.isFor i))
    have hq2 := lastStatus_quad i p2 (by rw [← hft]; exact h2t.filter (Event.isFor i))
    have h12f := h12.filter (Event.isFor i)
    rcases hq1 with ⟨hf1, hl1⟩ | ⟨hf1, hl1⟩ | ⟨hf1, hl1⟩ | ⟨hf1, hl1⟩ <;>
      rcases hq2 with ⟨hf2, hl2⟩ | ⟨hf2, hl2⟩ | ⟨hf2, hl2⟩ | ⟨hf2, hl2⟩ <;>
      rw [hl1, hl2] <;>
      first
        | decide
        | (exfalso
           rw [hf1, hf2] at h12f
           have := h12f.length_le
           simp at this)
  · intro p e hpe
    have hpf : (p ++ [e]).filter (Event.isFor i) <+:
        [Event.trigger i, Event.work i, Event.complete i] := by
      rw [← hft]
      exact hpe.filter (Event.isFor i)
    rw [memStatus_run j _ (p ++ [e]) i hyet hi, memStatus_run j _ p i hyet hi,
      lastStatusEvent_concat]
    rcases e with k | k | k
    · -- trigger k
      by_cases hk : k = i
      · subst hk
        right
        have hfe : [Event.trigger k].filter (Event.isFor k) = [Event.trigger k] := by
          simp [Event.isFor, Event.idx]
        rw [List.filter_append, hfe] at hpf
        rcases append_single_pre hpf with ⟨hfp, _⟩ | ⟨_, hx⟩ | ⟨_, hx⟩
        · rw [lastStatusEvent_filter, hfp]
          simp only [statusOfEvent, if_pos rfl]
          rfl
        · cases hx
        · cases hx
      · left
        rw [show statusOfEvent i (Event.trigger k) = none by simp [statusOfEvent, hk]]
    · -- work k
      left
      rfl
    · -- complete k
      by_cases hk : k = i
      · subst hk
        right
        have hfe : [Event.complete k].filter (Event.isFor k) = [Event.complete k] := by
          simp [Event.isFor, Event.idx]
        rw [List.filter_append, hfe] at hpf
        rcases append_single_pre hpf with ⟨_, hx⟩ | ⟨_, hx⟩ | ⟨hfp, _⟩
        · cases hx
        · cases hx
        · rw [lastStatusEvent_filter, hfp]
          simp only [statusOfEvent, lastStatusEvent, if_pos rfl]
          rfl
      · left
        rw [show statusOfEvent i (Event.complete k) = none by simp [statusOfEvent, hk]]

/-- Witness for C4 on a concrete one-batch job: prefixes `[]`,
`[trigger 0]` and the single step appending `trigger 0`. -/
theorem c4_status_monotone_witness :
    ((∀ b ∈ (IngestionJob.mk "j" [1] .HIGH 0 [Batch.mk "b" [1] .YET_TO_START]).batches,
        b.status = .YET_TO_START) ∧
      0 < (IngestionJob.mk "j" [1] .HIGH 0 [Batch.mk "b" [1] .YET_TO_START]).batches.length) ∧
    ((∀ p : List Event,
      storeGet (runDispatch (IngestionJob.mk "j" [1] .HIGH 0 [Batch.mk "b" [1] .YET_TO_START],
          [("ingestion:" ++ "j",
            (IngestionJob.mk "j" [1] .HIGH 0 [Batch.mk "b" [1] .YET_TO_START]).to_dict)]) p).2
          ("ingestion:" ++ (IngestionJob.mk "j" [1] .HIGH 0 [Batch.mk "b" [1] .YET_TO_START]).ingestion_id) =
        some (JobRecord.mk "j"
          (IngestionJob.mk "j" [1] .HIGH 0 [Batch.mk "b" [1] .YET_TO_START]).get_overall_status
          ((runDispatch (IngestionJob.mk "j" [1] .HIGH 0 [Batch.mk "b" [1] .YET_TO_START],
            [("ingestion:" ++ "j",
              (IngestionJob.mk "j" [1] .HIGH 0 [Batch.mk "b" [1] .YET_TO_START]).to_dict)]) p).1.batches.map
            Batch.to_dict))) ∧
    (∀ p1 p2 : List Event, p1 <+: p2 →
      p2 <+: dispatchTrace (IngestionJob.mk "j" [1] .HIGH 0 [Batch.mk "b" [1] .YET_TO_START]) →
      (memStatus (runDispatch (IngestionJob.mk "j" [1] .HIGH 0 [Batch.mk "b" [1] .YET_TO_START],
          [("ingestion:" ++ "j",
            (IngestionJob.mk "j" [1] .HIGH 0 [Batch.mk "b" [1] .YET_TO_START]).to_dict)]) p1) 0).rank ≤
        (memStatus (runDispatch (IngestionJob.mk "j" [1] .HIGH 0 [Batch.mk "b" [1] .YET_TO_START],
          [("ingestion:" ++ "j",
            (IngestionJob.mk "j" [1] .HIGH 0 [Batch.mk "b" [1] .YET_TO_START]).to_dict)]) p2) 0).rank) ∧
    (∀ (p : List Event) (e : Event),
      p ++ [e] <+: dispatchTrace (IngestionJob.mk "j" [1] .HIGH 0 [Batch.mk "b" [1] .YET_TO_START]) →
      memStatus (runDispatch (IngestionJob.mk "j" [1] .HIGH 0 [Batch.mk "b" [1] .YET_TO_START],
          [("ingestion:" ++ "j",
            (IngestionJob.mk "j" [1] .HIGH 0 [Batch.mk "b" [1] .YET_TO_START]).to_dict)]) (p ++ [e])) 0 =
          memStatus (runDispatch (IngestionJob.mk "j" [1] .HIGH 0 [Batch.mk "b" [1] .YET_TO_START],
            [("ingestion:" ++ "j",
              (IngestionJob.mk "j" [1] .HIGH 0 [Batch.mk "b" [1] .YET_TO_START]).to_dict)]) p) 0 ∨
        memStatus (runDispatch (IngestionJob.mk "j" [1] .HIGH 0 [Batch.mk "b" [1] .YET_TO_START],
            [("ingestion:" ++ "j",
              (IngestionJob.mk "j" [1] .HIGH 0 [Batch.mk "b" [1] .YET_TO_START]).to_dict)]) (p ++ [e])) 0 =
          (memStatus (runDispatch (IngestionJob.mk "j" [1] .HIGH 0 [Batch.mk "b" [1] .YET_TO_START],
            [("ingestion:" ++ "j",
              (IngestionJob.mk "j" [1] .HIGH 0 [Batch.mk "b" [1] .YET_TO_START]).to_dict)]) p) 0).forwardStep)) :=
  ⟨⟨by decide, by decide⟩,
   c4_status_monotone (IngestionJob.mk "j" [1] .HIGH 0 [Batch.mk "b" [1] .YET_TO_START])
     [] [] _ 0 (by decide) (by decide) (by decide) (by simp) (by simp) rfl⟩

/-! ### C5: sequential dispatch and the TRIGGERED window -/

/-- The dispatch trace splits at batch `i`: all earlier batches' blocks,
then `i`'s own trigger/work/complete block, then the rest. -/
theorem dispatchTrace_decomp (j : IngestionJob) (i : Nat) (hi : i < j.batches.length) :
    ∃ t2 : List Event,
      dispatchTrace j =
        ((List.range i).flatMap fun k => [Event.trigger k, Event.work k, Event.complete k]) ++
          Event.trigger i :: Event.work i :: Event.complete i :: t2 := by
  have hlen : j.batches.length = i + (j.batches.length - i - 1 + 1) := by omega
  refine ⟨(List.map Nat.succ (List.range (j.batches.length - i - 1))).flatMap
      (fun x => [Event.trigger (i + x), Event.work (i + x), Event.complete (i + x)]), ?_⟩
  show (List.range j.batches.length).flatMap
      (fun k => [Event.trigger k, Event.work k, Event.complete k]) = _
  conv_lhs => rw [hlen]
  rw [List.range_add, List.flatMap_append, List.flatMap_map, List.range_succ_eq_map]
  simp only [List.flatMap_cons, Nat.add_zero, List.cons_append, List.nil_append,
    List.append_assoc]

/-- C5: while a batch sits between its persisted TRIGGERED transition and
its COMPLETED transition, (1) its block order in the trace is trigger, then
the opaque work, then complete; (2) every earlier batch has already been
completed (strictly sequential list order); (3) a `GET /status` query
observes `triggered` for that batch, matching the in-memory state. -/
theorem c5_triggered_window (j : IngestionJob) (s1 s2 s0 : Store) (p : List Event) (i : Nat)
    (hyet : ∀ b ∈ j.batches, b.status = .YET_TO_START)
    (hi : i < j.batches.length)
    (hnd : (j.batches.map Batch.batch_id).Nodup)
    (hs1 : ∀ pr ∈ s1, ∀ bid ∈ j.batches.map Batch.batch_id,
      recordHasBatch bid pr.2 = false)
    (hkeys : ∀ pr ∈ s1, pr.1 ≠ "ingestion:" ++ j.ingestion_id)
    (hs0 : s0 = s1 ++ ("ingestion:" ++ j.ingestion_id, j.to_dict) :: s2)
    (hp : p <+: dispatchTrace j)
    (htr : Event.trigger i ∈ p)
    (hnc : Event.complete i ∉ p) :
    ((dispatchTrace j).filter (Event.isFor i) =
      [Event.trigger i, Event.work i, Event.complete i]) ∧
    (∀ i', i' < i → Event.complete i' ∈ p) ∧
    (∃ r : JobRecord,
      (get_status (runDispatch (j, s0) p).2 j.ingestion_id).1 = .ok r ∧
      (r.batches[i]?).map BatchRecord.status = some .TRIGGERED) ∧
    memStatus (runDispatch (j, s0) p) i = .TRIGGERED := by
  subst hs0
  have hft := filter_dispatchTrace j i hi
  have hlast : lastStatusEvent i p = some .TRIGGERED := by
    have hpf : p.filter (Event.isFor i) <+:
        [Event.trigger i, Event.work i, Event.complete i] := by
      rw [← hft]
      exact hp.filter (Event.isFor i)
    have htrf : Event.trigger i ∈ p.filter (Event.isFor i) :=
      List.mem_filter.mpr ⟨htr, by simp [Event.isFor, Event.idx]⟩
    rcases lastStatus_quad i p hpf with ⟨hf, _⟩ | ⟨_, hl⟩ | ⟨_, hl⟩ | ⟨hf, _⟩
    · rw [hf] at htrf
      cases htrf
    · exact hl
    · exact hl
    · exfalso
      apply hnc
      have hcin : Event.complete i ∈ List.filter (Event.isFor i) p := by
        rw [hf]
        simp
      exact List.mem_of_mem_filter hcin
  refine ⟨hft, ?_, ?_, ?_⟩
  · intro i' hi'
    obtain ⟨t2, hdec⟩ := dispatchTrace_decomp j i hi
    by_cases hle : p.length ≤
        ((List.range i).flatMap fun k =>
          [Event.trigger k, Event.work k, Event.complete k]).length
    · exfalso
      have hT1pre : ((List.range i).flatMap fun k =>
          [Event.trigger k, Event.work k, Event.complete k]) <+: dispatchTrace j := by
        rw [hdec]
        exact List.prefix_append _ _
      have hpT1 := List.prefix_of_prefix_length_le hp hT1pre hle
      have hmemT1 := hpT1.subset htr
      obtain ⟨k, hk, hin⟩ := List.mem_flatMap.mp hmemT1
      have hk' : k < i := List.mem_range.mp hk
      simp only [List.mem_cons, List.not_mem_nil, or_false] at hin
      rcases hin with hin | hin | hin <;> (cases hin <;> omega)
    · have hT1p : (((List.range i).flatMap fun k =>
          [Event.trigger k, Event.work k, Event.complete k]) ++ [Event.trigger i]) <+: p := by
        refine List.prefix_of_prefix_length_le ?_ hp ?_
        · rw [hdec]
          refine ⟨Event.work i :: Event.complete i :: t2, ?_⟩
          simp [List.append_assoc]
        · simp only [List.length_append, List.length_cons, List.length_nil]
          omega
      have hcmem : Event.complete i' ∈ ((List.range i).flatMap fun k =>
          [Event.trigger k, Event.work k, Event.complete k]) :=
        List.mem_flatMap.mpr ⟨i', List.mem_range.mpr hi', by simp⟩
      exact hT1p.subset (by simp [hcmem])
  · have hrec := c1_record_batch_sync j s1 s2 p hnd hs1 hkeys
    refine ⟨JobRecord.mk j.ingestion_id j.get_overall_status
      ((runDispatch (j, s1 ++ ("ingestion:" ++ j.ingestion_id, j.to_dict) :: s2) p).1.batches.map
        Batch.to_dict), ?_, ?_⟩
    · simp [get_status, hrec]
    · have hmem := runDispatch_getElem p
        (j, s1 ++ ("ingestion:" ++ j.ingestion_id, j.to_dict) :: s2) i
      rw [List.getElem?_eq_getElem hi, hlast] at hmem
      rw [List.getElem?_map, hmem]
      rfl
  · rw [memStatus_run j _ p i hyet hi, hlast]
    rfl

/-- Witness for C5: a two-batch job, queried after batch 1 is triggered but
before it completes; batch 0 has already completed. -/
theorem c5_triggered_window_witness :
    ((∀ b ∈ (IngestionJob.mk "j" [1, 2, 3, 4] .HIGH 0 [Batch.mk "a" [1, 2, 3] .YET_TO_START, Batch.mk "c" [4] .YET_TO_START]).batches, b.status = .YET_TO_START) ∧
      1 < (IngestionJob.mk "j" [1, 2, 3, 4] .HIGH 0 [Batch.mk "a" [1, 2, 3] .YET_TO_START, Batch.mk "c" [4] .YET_TO_START]).batches.length ∧
      (((IngestionJob.mk "j" [1, 2, 3, 4] .HIGH 0 [Batch.mk "a" [1, 2, 3] .YET_TO_START, Batch.mk "c" [4] .YET_TO_START]).batches.map Batch.batch_id)).Nodup ∧
      [Event.trigger 0, Event.work 0, Event.complete 0, Event.trigger 1] <+: dispatchTrace (IngestionJob.mk "j" [1, 2, 3, 4] .HIGH 0 [Batch.mk "a" [1, 2, 3] .YET_TO_START, Batch.mk "c" [4] .YET_TO_START]) ∧
      Event.trigger 1 ∈ [Event.trigger 0, Event.work 0, Event.complete 0, Event.trigger 1] ∧
      Event.complete 1 ∉ [Event.trigger 0, Event.work 0, Event.complete 0, Event.trigger 1]) ∧
    (((dispatchTrace (IngestionJob.mk "j" [1, 2, 3, 4] .HIGH 0 [Batch.mk "a" [1, 2, 3] .YET_TO_START, Batch.mk "c" [4] .YET_TO_START])).filter (Event.isFor 1) =
        [Event.trigger 1, Event.work 1, Event.complete 1]) ∧
      (∀ i', i' < 1 → Event.complete i' ∈ [Event.trigger 0, Event.work 0, Event.complete 0, Event.trigger 1]) ∧
      (∃ r : JobRecord,
        (get_status (runDispatch ((IngestionJob.mk "j" [1, 2, 3, 4] .HIGH 0 [Batch.mk "a" [1, 2, 3] .YET_TO_START, Batch.mk "c" [4] .YET_TO_START]), ([] ++ ("ingestion:" ++ (IngestionJob.mk "j" [1, 2, 3, 4] .HIGH 0 [Batch.mk "a" [1, 2, 3] .YET_TO_START, Batch.mk "c" [4] .YET_TO_START]).ingestion_id, (IngestionJob.mk "j" [1, 2, 3, 4] .HIGH 0 [Batch.mk "a" [1, 2, 3] .YET_TO_START, Batch.mk "c" [4] .YET_TO_START]).to_dict) :: [])) [Event.trigger 0, Event.work 0, Event.complete 0, Event.trigger 1]).2 (IngestionJob.mk "j" [1, 2, 3, 4] .HIGH 0 [Batch.mk "a" [1, 2, 3] .YET_TO_START, Batch.mk "c" [4] .YET_TO_START]).ingestion_id).1 = .ok r ∧
        (r.batches[1]?).map BatchRecord.status = some .TRIGGERED) ∧
      memStatus (runDispatch ((IngestionJob.mk "j" [1, 2, 3, 4] .HIGH 0 [Batch.mk "a" [1, 2, 3] .YET_TO_START, Batch.mk "c" [4] .YET_TO_START]), ([] ++ ("ingestion:" ++ (IngestionJob.mk "j" [1, 2, 3, 4] .HIGH 0 [Batch.mk "a" [1, 2, 3] .YET_TO_START, Batch.mk "c" [4] .YET_TO_START]).ingestion_id, (IngestionJob.mk "j" [1, 2, 3, 4] .HIGH 0 [Batch.mk "a" [1, 2, 3] .YET_TO_START, Batch.mk "c" [4] .YET_TO_START]).to_dict) :: [])) [Event.trigger 0, Event.work 0, Event.complete 0, Event.trigger 1]) 1 = .TRIGGERED) :=
  ⟨⟨by decide, by decide, by decide, by decide, by decide, by decide⟩,
   c5_triggered_window (IngestionJob.mk "j" [1, 2, 3, 4] .HIGH 0 [Batch.mk "a" [1, 2, 3] .YET_TO_START, Batch.mk "c" [4] .YET_TO_START]) [] [] ([] ++ ("ingestion:" ++ (IngestionJob.mk "j" [1, 2, 3, 4] .HIGH 0 [Batch.mk "a" [1, 2, 3] .YET_TO_START, Batch.mk "c" [4] .YET_TO_START]).ingestion_id, (IngestionJob.mk "j" [1, 2, 3, 4] .HIGH 0 [Batch.mk "a" [1, 2, 3] .YET_TO_START, Batch.mk "c" [4] .YET_TO_START]).to_dict) :: []) [Event.trigger 0, Event.work 0, Event.complete 0, Event.trigger 1] 1
     (by decide) (by decide) (by decide) (by simp) (by simp) rfl
     (by decide) (by decide) (by decide)⟩
